import Mathlib

/-!
Verification of the symbol and vtable pipeline of implib-gen.py.

Python strings are modelled as `List Char`, byte strings as `List Nat`,
dictionaries as association lists where insertion conses to the front and
lookup takes the first match (so the latest insertion wins, as in Python),
and fallible operations (uncaught exceptions, calls to the fatal `error`
helper) as `Option`/`Except`.
-/

namespace ImplibGen

/-- Value of a hexadecimal digit, `none` for a non-digit. -/
def hexVal (c : Char) : Option Nat :=
  if '0' ≤ c ∧ c ≤ '9' then some (c.toNat - 48)
  else if 'a' ≤ c ∧ c ≤ 'f' then some (c.toNat - 87)
  else if 'A' ≤ c ∧ c ≤ 'F' then some (c.toNat - 55)
  else none

def parseHexAux : List Char → Nat → Option Nat
  | [], acc => some acc
  | c :: cs, acc =>
    match hexVal c with
    | some d => parseHexAux cs (16 * acc + d)
    | none => none

/-- Models Python `int(x, 16)` on the bare hexadecimal digit strings that
readelf emits: `none` (an uncaught `ValueError`) on an empty string or on a
non-digit character. -/
def parseHex (s : List Char) : Option Nat :=
  if s = [] then none else parseHexAux s 0

/-- Models the Python slice `l[a:b]` for `a ≤ b` (both clamp at the length). -/
def pySlice (l : List α) (a b : Nat) : List α :=
  (l.drop a).take (b - a)

/-- Models Python `range(0, stop, step)` for `step > 0`: the multiples of
`step` below `stop`. -/
def pyRange (stop step : Nat) : List Nat :=
  if step = 0 then []
  else (List.range ((stop + step - 1) / step)).map (fun j => j * step)

/-- Models `int.from_bytes(b, byteorder="little")`. -/
def leBytes : List Nat → Nat
  | [] => 0
  | x :: xs => x + 256 * leBytes xs

/-- A dynamic relocation as stored by `collect_relocs`: `Offset`, `Type` and
the split target cell `(symbol name, addend)`. -/
structure Rel where
  offset : Nat
  rtype : List Char
  target : List Char × Nat
deriving DecidableEq

/-- One entry of a reconstructed vtable, as built by `collect_relocated_data`:
the tagged pairs `("byte", v)`, `("offset", v)` and `("reloc", rel)`. -/
inductive Slot where
  | byte (v : Nat)
  | offset (v : Nat)
  | reloc (r : Rel)
deriving DecidableEq

/-- An allocatable section row (`Address`, `Off`, `Size` fields). -/
structure Sec where
  address : Nat
  off : Nat
  size : Nat
deriving DecidableEq

/-- The address fields (`Value`, `Size`) of a symbol row. -/
structure SymAddr where
  value : Nat
  size : Nat
deriving DecidableEq

/-- The word-decoding loop of `collect_relocated_data` (lines 416-421):
`for i in range(0, len(b), ptr_size)` appends
`("offset", int.from_bytes(b[i * ptr_size : (i + 1) * ptr_size], "little"))`.
Note that `i` already runs over multiples of `ptr_size` and is multiplied by
`ptr_size` again inside the slice, exactly as in the source. -/
def wordSlots (b : List Nat) (ptrSize : Nat) : List Slot :=
  (pyRange b.length ptrSize).map
    (fun i => Slot.offset (leBytes (pySlice b (i * ptrSize) ((i + 1) * ptrSize))))

/-- Modelled from the spec: the slot sequence the specification describes,
`⌈size / pointer_size⌉` entries whose i-th entry decodes the little-endian
word in bytes `[i * pointer_size, (i + 1) * pointer_size)`. -/
def slotsSpec (b : List Nat) (ptrSize : Nat) : List Slot :=
  if ptrSize = 0 then []
  else (List.range ((b.length + ptrSize - 1) / ptrSize)).map
    (fun i => Slot.offset (leBytes (pySlice b (i * ptrSize) ((i + 1) * ptrSize))))

/-- Applicability test of the relocation-overlay loop (line 426):
`rel["Type"] in reloc_types and start <= rel["Offset"] < finish`. -/
def relApplicable (symVal symSize : Nat) (relocTypes : List (List Char)) (r : Rel) : Bool :=
  relocTypes.contains r.rtype && decide (symVal ≤ r.offset) && decide (r.offset < symVal + symSize)

/-- One step of the relocation overlay (lines 426-429): an applicable
relocation replaces the slot at index `(offset - start) // ptr_size`. -/
def overlayStep (symVal symSize ptrSize : Nat) (relocTypes : List (List Char))
    (slots : List Slot) (r : Rel) : List Slot :=
  if relApplicable symVal symSize relocTypes r then
    slots.set ((r.offset - symVal) / ptrSize) (Slot.reloc r)
  else slots

/-- The relocation-overlay loop of `collect_relocated_data` (lines 425-429). -/
def overlayRels (symVal symSize ptrSize : Nat) (relocTypes : List (List Char))
    (rels : List Rel) (slots : List Slot) : List Slot :=
  rels.foldl (overlayStep symVal symSize ptrSize relocTypes) slots

/-- The body of `collect_relocated_data` for a single symbol (lines 410-429):
`typeinfo name` symbols become byte slots and skip the overlay; other symbols
are word-decoded and then overlaid with the applicable relocations. -/
def collect_relocated_data (demangled : List Char) (s : SymAddr) (b : List Nat)
    (rels : List Rel) (ptrSize : Nat) (relocTypes : List (List Char)) : List Slot :=
  if ("typeinfo name".toList).isPrefixOf demangled then b.map Slot.byte
  else overlayRels s.value s.size ptrSize relocTypes rels (wordSlots b ptrSize)

/-- The containment test of `read_unrelocated_data` (lines 387-391). -/
def is_symbol_in_section (s : SymAddr) (sec : Sec) : Bool :=
  decide (sec.address ≤ s.value) && decide (s.value < sec.address + sec.size)
    && decide (s.value + s.size ≤ sec.address + sec.size)

/-- The body of `read_unrelocated_data` for a single symbol (lines 395-403):
the unique containing section is located (any other count is fatal, with the
symbol's interval in the message, modelled as the error payload), then the
file is seeked to `sec["Off"]` and `s["Size"]` bytes are read. -/
def read_unrelocated_data (file : List Nat) (secs : List Sec) (s : SymAddr) :
    Except (Nat × Nat) (List Nat) :=
  match secs.filter (is_symbol_in_section s) with
  | [sec] => Except.ok (pySlice file sec.off (sec.off + s.size))
  | _ => Except.error (s.value, s.value + s.size)

/-- Modelled from the spec: read `sym.size` bytes at file position
`S.file_offset + (sym.value - S.address)` of the unique containing section. -/
def readSpec (file : List Nat) (secs : List Sec) (s : SymAddr) :
    Except (Nat × Nat) (List Nat) :=
  match secs.filter (is_symbol_in_section s) with
  | [sec] =>
      Except.ok (pySlice file (sec.off + (s.value - sec.address))
        (sec.off + (s.value - sec.address) + s.size))
  | _ => Except.error (s.value, s.value + s.size)

/-- Models `re.sub(r"@.*", "", name)`: everything from the first `@` on is
dropped. -/
def stripVersionSuffix (s : List Char) : List Char :=
  s.takeWhile (fun c => c ≠ '@')

/-- One slot of the extern-printing loop of `generate_vtables` (lines
449-461): for a reloc slot, the version-stripped target name is emitted
unless it is a class symbol or is in `printed`; the `printed` set is
consulted but never extended, exactly as in the source. The state is the
pair (printed, emitted extern names). -/
def externStep (clsSymNames : List (List Char))
    (acc : List (List Char) × List (List Char)) (slot : Slot) :
    List (List Char) × List (List Char) :=
  match slot with
  | Slot.reloc r =>
      let symName := stripVersionSuffix r.target.1
      if !(clsSymNames.contains symName) && !(acc.1.contains symName) then
        (acc.1, acc.2 ++ [symName])
      else acc
  | _ => acc

/-- The extern-printing loop of `generate_vtables` over the (sorted) class
data items, returning the names of the emitted
`extern const char NAME[];` declarations in order. -/
def externNames (clsSymNames : List (List Char))
    (clsData : List (List Char × List Slot)) : List (List Char) :=
  (clsData.foldl (fun acc nd => nd.2.foldl (externStep clsSymNames) acc) ([], [])).2

/-- Side condition under which the relocation overlay is order-independent:
any two applicable relocations of the list that land in the same slot index
are the same relocation. -/
def OverlayNoClash (symVal symSize ptrSize : Nat) (relocTypes : List (List Char))
    (rels : List Rel) : Prop :=
  ∀ r1 ∈ rels, ∀ r2 ∈ rels,
    relApplicable symVal symSize relocTypes r1 = true →
    relApplicable symVal symSize relocTypes r2 = true →
    (r1.offset - symVal) / ptrSize = (r2.offset - symVal) / ptrSize → r1 = r2

instance (symVal symSize ptrSize : Nat) (relocTypes : List (List Char)) (rels : List Rel) :
    Decidable (OverlayNoClash symVal symSize ptrSize relocTypes rels) := by
  unfold OverlayNoClash; infer_instance

theorem overlayStep_comm (symVal symSize ptrSize : Nat) (relocTypes : List (List Char))
    (r1 r2 : Rel)
    (h : relApplicable symVal symSize relocTypes r1 = true →
      relApplicable symVal symSize relocTypes r2 = true →
      (r1.offset - symVal) / ptrSize = (r2.offset - symVal) / ptrSize → r1 = r2)
    (slots : List Slot) :
    overlayStep symVal symSize ptrSize relocTypes
        (overlayStep symVal symSize ptrSize relocTypes slots r1) r2 =
      overlayStep symVal symSize ptrSize relocTypes
        (overlayStep symVal symSize ptrSize relocTypes slots r2) r1 := by
  unfold overlayStep
  by_cases h1 : relApplicable symVal symSize relocTypes r1 = true
  · by_cases h2 : relApplicable symVal symSize relocTypes r2 = true
    · simp only [h1, h2, if_pos]
      by_cases hij : (r1.offset - symVal) / ptrSize = (r2.offset - symVal) / ptrSize
      · cases h h1 h2 hij; rfl
      · exact List.set_comm _ _ _ hij
    · simp [h1, h2]
  · by_cases h2 : relApplicable symVal symSize relocTypes r2 = true
    · simp [h1, h2]
    · simp [h1, h2]

theorem overlayRels_perm_aux (symVal symSize ptrSize : Nat) (relocTypes : List (List Char))
    {rels1 rels2 : List Rel} (hp : rels1.Perm rels2) :
    OverlayNoClash symVal symSize ptrSize relocTypes rels1 →
    ∀ slots, overlayRels symVal symSize ptrSize relocTypes rels1 slots =
      overlayRels symVal symSize ptrSize relocTypes rels2 slots := by
  induction hp with
  | nil => exact fun _ _ => rfl
  | cons x hp ih =>
      intro hc slots
      have hc2 : OverlayNoClash symVal symSize ptrSize relocTypes _ :=
        fun r1 h1 r2 h2 => hc r1 (List.mem_cons_of_mem x h1) r2 (List.mem_cons_of_mem x h2)
      simpa [overlayRels, List.foldl_cons] using
        ih hc2 (overlayStep symVal symSize ptrSize relocTypes slots x)
  | swap x y l =>
      intro hc slots
      simp only [overlayRels, List.foldl_cons]
      rw [overlayStep_comm symVal symSize ptrSize relocTypes y x
        (fun a b c => hc y (by simp) x (by simp) a b c) slots]
  | trans hp12 hp23 ih1 ih2 =>
      intro hc slots
      refine (ih1 hc slots).trans (ih2 ?_ slots)
      exact fun r1 h1 r2 h2 => hc r1 (hp12.mem_iff.mpr h1) r2 (hp12.mem_iff.mpr h2)

/-- C4 counterexample: two distinct relocations of an accepted type at the
same offset land in the same slot; applying them in the two orders (which
are permutations of each other) leaves different relocations in the slot, so
the overlay is not order-independent as claimed. -/
theorem overlay_order_dependent :
    ([⟨0, ("R".toList), (("a".toList), 0)⟩, ⟨0, ("R".toList), (("b".toList), 0)⟩] :
        List Rel).Perm
      [⟨0, ("R".toList), (("b".toList), 0)⟩, ⟨0, ("R".toList), (("a".toList), 0)⟩] ∧
    overlayRels 0 8 8 [("R".toList)]
        [⟨0, ("R".toList), (("a".toList), 0)⟩, ⟨0, ("R".toList), (("b".toList), 0)⟩]
        [Slot.offset 5] ≠
      overlayRels 0 8 8 [("R".toList)]
        [⟨0, ("R".toList), (("b".toList), 0)⟩, ⟨0, ("R".toList), (("a".toList), 0)⟩]
        [Slot.offset 5] :=
  ⟨List.Perm.swap _ _ _, by decide⟩

/-- C4 amended: the relocation overlay is order-independent provided no two
distinct applicable relocations of the list land in the same slot index
(when they do, the one applied last wins): for any two permutations of such
a relocation list the final slot sequence is the same. -/
theorem overlay_perm_invariant (symVal symSize ptrSize : Nat)
    (relocTypes : List (List Char)) (rels1 rels2 : List Rel)
    (hp : rels1.Perm rels2)
    (hc : OverlayNoClash symVal symSize ptrSize relocTypes rels1) (slots : List Slot) :
    overlayRels symVal symSize ptrSize relocTypes rels1 slots =
      overlayRels symVal symSize ptrSize relocTypes rels2 slots :=
  overlayRels_perm_aux symVal symSize ptrSize relocTypes hp hc slots

/-- C4 witness: two relocations with distinct slot indices overlaid in both
orders produce the same slot sequence. -/
theorem overlay_perm_invariant_witness :
    overlayRels 0 16 8 [("R".toList)]
        [⟨0, ("R".toList), (("a".toList), 0)⟩, ⟨8, ("R".toList), (("b".toList), 0)⟩]
        [Slot.offset 5, Slot.offset 6] =
      overlayRels 0 16 8 [("R".toList)]
        [⟨8, ("R".toList), (("b".toList), 0)⟩, ⟨0, ("R".toList), (("a".toList), 0)⟩]
        [Slot.offset 5, Slot.offset 6] :=
  overlay_perm_invariant 0 16 8 [("R".toList)] _ _ (List.Perm.swap _ _ _) (by decide)
    [Slot.offset 5, Slot.offset 6]

/-- C1: the claim says the i-th pre-overlay slot of a vtable symbol decodes
bytes `[i * ptr_size, (i + 1) * ptr_size)`, and the code intends that, but
its loop variable already steps by `ptr_size` and is multiplied by
`ptr_size` once more in the slice: with raw bytes `[1, 0, 2, 0]` and pointer
size 2 the second slot decodes the empty slice `b[4:6]` and yields 0 instead
of 2. The slot count `⌈size / ptr_size⌉` does agree. -/
theorem collect_relocated_data_word_bug :
    collect_relocated_data ("vtable for C".toList) ⟨0, 4⟩ [1, 0, 2, 0] [] 2 [] =
      [Slot.offset 1, Slot.offset 0] ∧
    slotsSpec [1, 0, 2, 0] 2 = [Slot.offset 1, Slot.offset 2] ∧
    collect_relocated_data ("vtable for C".toList) ⟨0, 4⟩ [1, 0, 2, 0] [] 2 [] ≠
      slotsSpec [1, 0, 2, 0] 2 := by
  refine ⟨by decide, by decide, by decide⟩

/-- C2: the claim says the bytes are read at file position
`S.file_offset + (sym.value - S.address)`, but the code seeks to
`S.file_offset` alone: for a section at address 16 with file offset 32 and a
4-byte symbol at address 32, the code reads file bytes 32..35 while the
claimed position is 48. -/
theorem read_unrelocated_data_seek_bug :
    read_unrelocated_data (List.range 96) [⟨16, 32, 48⟩] ⟨32, 4⟩ =
      Except.ok [32, 33, 34, 35] ∧
    readSpec (List.range 96) [⟨16, 32, 48⟩] ⟨32, 4⟩ =
      Except.ok [48, 49, 50, 51] ∧
    read_unrelocated_data (List.range 96) [⟨16, 32, 48⟩] ⟨32, 4⟩ ≠
      readSpec (List.range 96) [⟨16, 32, 48⟩] ⟨32, 4⟩ := by
  refine ⟨rfl, rfl, fun h => absurd (Except.ok.inj h) (by decide)⟩

/-- C3: the claim says extern declarations are deduplicated by name, and the
code keeps a `printed` set for that purpose, but never adds to it: a class
with two reloc slots targeting the same external name `f` emits the
`extern const char f[];` declaration twice. -/
theorem extern_dedup_bug :
    externNames [("v".toList)]
        [(("v".toList), [Slot.reloc ⟨0, ("R".toList), (("f".toList), 0)⟩,
                         Slot.reloc ⟨8, ("R".toList), (("f".toList), 0)⟩])] =
      [("f".toList), ("f".toList)] ∧
    (externNames [("v".toList)]
        [(("v".toList), [Slot.reloc ⟨0, ("R".toList), (("f".toList), 0)⟩,
                         Slot.reloc ⟨8, ("R".toList), (("f".toList), 0)⟩])]).count
        ("f".toList) = 2 := by
  refine ⟨by decide, by decide⟩

/-- A symbol row as consumed by the export filter: the `Name`, `Bind`,
`Visibility`, `Type` and `Ndx` fields. -/
structure SymRec where
  name : List Char
  bind : List Char
  visibility : List Char
  stype : List Char
  ndx : List Char
deriving DecidableEq

/-- The export predicate `is_exported` of `main` (lines 765-775): the listed
conditions, extended with the weak-bind condition when `--no-weak-symbols`
is given, must all hold. -/
def is_exported (noWeakSymbols : Bool) (s : SymRec) : Bool :=
  let conditions : List Bool :=
    [s.bind != ("LOCAL".toList),
     s.visibility != ("HIDDEN".toList),
     s.stype != ("NOTYPE".toList),
     s.ndx != ("UND".toList),
     !([([] : List Char), ("_init".toList), ("_fini".toList)].contains s.name)]
  let conditions :=
    if noWeakSymbols then conditions ++ [s.bind != ("WEAK".toList)] else conditions
  conditions.all id

theorem is_exported_iff (noWeakSymbols : Bool) (s : SymRec) :
    is_exported noWeakSymbols s = true ↔
      (s.bind ≠ ("LOCAL".toList) ∧ s.visibility ≠ ("HIDDEN".toList) ∧
       s.stype ≠ ("NOTYPE".toList) ∧ s.ndx ≠ ("UND".toList) ∧
       s.name ≠ ([] : List Char) ∧ s.name ≠ ("_init".toList) ∧ s.name ≠ ("_fini".toList) ∧
       (noWeakSymbols = true → s.bind ≠ ("WEAK".toList))) := by
  cases noWeakSymbols <;>
    simp [is_exported, List.all, and_assoc, not_or, Bool.and_assoc]

/-- C5: a symbol passes the export filter exactly when its bind is not
LOCAL, its visibility is not HIDDEN, its type is not NOTYPE, its section
index is not UND, its name is none of the empty string, `_init`, `_fini`,
and, when the no-weak-symbols option is set, its bind is also not WEAK. -/
theorem is_exported_characterization (noWeakSymbols : Bool) (s : SymRec) :
    is_exported noWeakSymbols s = true ↔
      (s.bind ≠ ("LOCAL".toList) ∧ s.visibility ≠ ("HIDDEN".toList) ∧
       s.stype ≠ ("NOTYPE".toList) ∧ s.ndx ≠ ("UND".toList) ∧
       s.name ≠ ([] : List Char) ∧ s.name ≠ ("_init".toList) ∧ s.name ≠ ("_fini".toList) ∧
       (noWeakSymbols = true → s.bind ≠ ("WEAK".toList))) :=
  is_exported_iff noWeakSymbols s

/-- Models Python `str.isupper()` for the ASCII type codes nm prints: at
least one cased character and no lowercase one. -/
def pyIsUpper (s : List Char) : Bool :=
  s.any (fun c => c.isUpper || c.isLower) && s.all (fun c => !c.isLower)

/-- The nm-output parse of `collect_syms` (lines 121-128) building the
visibility dictionary: each line with at least three whitespace-separated
parts maps the symbol name (third part) to DEFAULT when the type code
(second part) is uppercase and to HIDDEN otherwise; a later line overwrites
an earlier one. Rows are given already whitespace-split. -/
def buildVisibility (rows : List (List (List Char))) : List (List Char × List Char) :=
  rows.foldl
    (fun vis parts =>
      match parts with
      | _ :: symbolType :: symbolName :: _ =>
          (symbolName,
            if pyIsUpper symbolType then ("DEFAULT".toList) else ("HIDDEN".toList)) :: vis
      | _ => vis)
    []

/-- Models `visibility.get(name, "DEFAULT")`, the visibility assignment used
at both symbol-construction sites of `collect_syms` (line 176 for Mach-O and
line 222 for ELF). -/
def visGet (vis : List (List Char × List Char)) (symName : List Char) : List Char :=
  match vis.find? (fun p => p.1 == symName) with
  | some p => p.2
  | none => "DEFAULT".toList

theorem visGet_of_absent (vis : List (List Char × List Char)) (symName : List Char)
    (habs : symName ∉ vis.map Prod.fst) : visGet vis symName = ("DEFAULT".toList) := by
  unfold visGet
  have hnone : vis.find? (fun p => p.1 == symName) = none := by
    refine List.find?_eq_none.mpr ?_
    intro p hp
    simp only [beq_iff_eq]
    intro hq
    exact habs (by simpa [hq] using List.mem_map_of_mem Prod.fst hp)
  rw [hnone]

/-- C10: a symbol whose (stored) name is not a key of the nm visibility
dictionary gets visibility DEFAULT from `visibility.get(name, "DEFAULT")` —
the assignment used on both the ELF and the Mach-O path — and the export
filter then never excludes it through its visibility condition: the filter
degenerates to the remaining conditions. -/
theorem absent_visibility_default (rows : List (List (List Char))) (symName : List Char)
    (noWeakSymbols : Bool) (s : SymRec)
    (habs : symName ∉ (buildVisibility rows).map Prod.fst)
    (hs : s.visibility = visGet (buildVisibility rows) symName) :
    s.visibility = ("DEFAULT".toList) ∧
      (is_exported noWeakSymbols s = true ↔
        (s.bind ≠ ("LOCAL".toList) ∧ s.stype ≠ ("NOTYPE".toList) ∧
         s.ndx ≠ ("UND".toList) ∧ s.name ≠ ([] : List Char) ∧
         s.name ≠ ("_init".toList) ∧ s.name ≠ ("_fini".toList) ∧
         (noWeakSymbols = true → s.bind ≠ ("WEAK".toList)))) := by
  have hdef : s.visibility = ("DEFAULT".toList) :=
    hs.trans (visGet_of_absent _ _ habs)
  refine ⟨hdef, ?_⟩
  rw [is_exported_iff]
  have hne : s.visibility ≠ ("HIDDEN".toList) := by
    rw [hdef]; decide
  tauto

/-- C10 witness: with an nm listing covering only `foo`, the symbol `bar` is
absent, gets DEFAULT visibility, and the filter reduces to the remaining
conditions. -/
theorem absent_visibility_default_witness :
    (⟨("bar".toList), ("GLOBAL".toList), ("DEFAULT".toList), ("FUNC".toList),
        ("1".toList)⟩ : SymRec).visibility = ("DEFAULT".toList) ∧
      (is_exported false ⟨("bar".toList), ("GLOBAL".toList), ("DEFAULT".toList),
          ("FUNC".toList), ("1".toList)⟩ = true ↔
        (("GLOBAL".toList) ≠ ("LOCAL".toList) ∧ ("FUNC".toList) ≠ ("NOTYPE".toList) ∧
         ("1".toList) ≠ ("UND".toList) ∧ ("bar".toList) ≠ ([] : List Char) ∧
         ("bar".toList) ≠ ("_init".toList) ∧ ("bar".toList) ≠ ("_fini".toList) ∧
         (false = true → ("GLOBAL".toList) ≠ ("WEAK".toList)))) :=
  absent_visibility_default [[("0040".toList), ("t".toList), ("foo".toList)]]
    ("bar".toList) false
    ⟨("bar".toList), ("GLOBAL".toList), ("DEFAULT".toList), ("FUNC".toList), ("1".toList)⟩
    (by decide) (by decide)

/-- Models Python `str.split(sep)` for a one-character separator: splits at
every occurrence, keeping empty parts. -/
def splitOnChar (c : Char) : List Char → List (List Char)
  | [] => [[]]
  | x :: xs =>
    match splitOnChar c xs with
    | [] => [[]]
    | y :: ys => if x = c then [] :: y :: ys else (x :: y) :: ys

/-- The target-cell split of `collect_relocs` (lines 333-337) for a
non-empty, normalized cell: `p = cell.split("+")`; a single part is turned
into `["", part]`; the stored target is `(p[0], int(p[1], 16))`. -/
def parseTarget (cell : List Char) : Option (List Char × Nat) :=
  let p := splitOnChar '+' cell
  let q := if p.length = 1 then [[], p.headD []] else p
  match q with
  | a :: b :: _ => (parseHex b).map (fun n => (a, n))
  | _ => none

theorem splitOnChar_ne_nil (c : Char) (l : List Char) : splitOnChar c l ≠ [] := by
  cases l with
  | nil => simp [splitOnChar]
  | cons x xs =>
      simp only [splitOnChar]
      rcases h : splitOnChar c xs with _ | ⟨y, ys⟩
      · simp
      · by_cases hx : x = c <;> simp [hx]

theorem splitOnChar_of_not_mem (c : Char) (l : List Char) (h : c ∉ l) :
    splitOnChar c l = [l] := by
  induction l with
  | nil => rfl
  | cons x xs ih =>
      have hx : x ≠ c := fun hc => h (hc ▸ List.mem_cons_self x xs)
      have hxs : c ∉ xs := fun hc => h (List.mem_cons_of_mem x hc)
      simp [splitOnChar, ih hxs, hx]

theorem splitOnChar_append (c : Char) (a b : List Char) (ha : c ∉ a) :
    splitOnChar c (a ++ c :: b) = a :: splitOnChar c b := by
  induction a with
  | nil =>
      rcases h : splitOnChar c b with _ | ⟨y, ys⟩
      · exact absurd h (splitOnChar_ne_nil c b)
      · simp [splitOnChar, h]
  | cons x xs ih =>
      have hx : x ≠ c := fun hc => ha (hc ▸ List.mem_cons_self x xs)
      have hxs : c ∉ xs := fun hc => ha (List.mem_cons_of_mem x hc)
      simp [splitOnChar, ih hxs, hx]

theorem splitOnChar_head (c : Char) (l : List Char) :
    ∃ ys, splitOnChar c l = l.takeWhile (fun x => x ≠ c) :: ys := by
  induction l with
  | nil => exact ⟨[], rfl⟩
  | cons x xs ih =>
      rcases ih with ⟨ys, hys⟩
      by_cases hx : x = c
      · subst hx
        refine ⟨splitOnChar x xs, ?_⟩
        have : (x :: xs).takeWhile (fun y => decide (y ≠ x)) = [] := by
          simp [List.takeWhile]
        rw [this]
        simp only [splitOnChar]
        rcases h : splitOnChar x xs with _ | ⟨y, ys2⟩
        · exact absurd h (splitOnChar_ne_nil x xs)
        · simp
      · refine ⟨ys, ?_⟩
        have : (x :: xs).takeWhile (fun y => decide (y ≠ c)) =
            x :: xs.takeWhile (fun y => decide (y ≠ c)) := by
          simp [List.takeWhile, hx]
        rw [this]
        simp only [splitOnChar, hys]
        simp [hx]

/-- C6 counterexample: a cell consisting only of the symbol name `abc` with
no `+` is not stored as `(abc, 0)`: the code replaces a split with a single
part by `["", part]`, so the whole cell is parsed as a hexadecimal addend
and the stored target is `("", 0xabc)`. -/
theorem reloc_target_bare_cell :
    parseTarget ("abc".toList) ≠ some (("abc".toList), 0) ∧
    parseTarget ("abc".toList) = some (([] : List Char), 2748) := by
  refine ⟨by decide, by decide⟩

/-- C6 amended: the normalized cell is split on every `+`. When the cell
contains a `+` the stored target is the part before the first `+` paired
with the hexadecimal value of the part between the first and the second `+`;
when the cell contains no `+` the whole cell is treated as a bare addend:
the stored target pairs the empty symbol name with its hexadecimal value. -/
theorem reloc_target_split (a b c : List Char)
    (ha : ('+' : Char) ∉ a) (hc : ('+' : Char) ∉ c) :
    parseTarget (a ++ '+' :: b) =
      (parseHex (b.takeWhile (fun x => x ≠ '+'))).map (fun n => (a, n)) ∧
    parseTarget c = (parseHex c).map (fun n => (([] : List Char), n)) := by
  constructor
  · unfold parseTarget
    rcases splitOnChar_head '+' b with ⟨ys, hys⟩
    rw [splitOnChar_append '+' a b ha, hys]
    simp
  · unfold parseTarget
    rw [splitOnChar_of_not_mem '+' c hc]
    simp

/-- C6 witness: the cell `ab+12` is stored as `(ab, 0x12)` and the bare cell
`abc` as `("", 0xabc)`. -/
theorem reloc_target_split_witness :
    parseTarget (("ab".toList) ++ '+' :: ("12".toList)) =
      (parseHex (("12".toList).takeWhile (fun x => x ≠ '+'))).map
        (fun n => (("ab".toList), n)) ∧
    parseTarget ("abc".toList) =
      (parseHex ("abc".toList)).map (fun n => (([] : List Char), n)) :=
  reloc_target_split ("ab".toList) ("12".toList) ("abc".toList) (by decide) (by decide)

/-- Prepends a character to the first part of a split result. -/
def consHead (x : Char) : List (List Char) → List (List Char)
  | [] => [[x]]
  | y :: ys => (x :: y) :: ys

/-- Models Python `re.split(r"@+", name)`: splits at every maximal run of
`@` characters. The flag records whether the current position is inside a
run whose boundary has already been emitted. -/
def splitAtRunsAux (inRun : Bool) : List Char → List (List Char)
  | [] => [[]]
  | x :: xs =>
    if x = '@' then
      if inRun then splitAtRunsAux true xs
      else [] :: splitAtRunsAux true xs
    else consHead x (splitAtRunsAux false xs)

def splitAtRuns (l : List Char) : List (List Char) :=
  splitAtRunsAux false l

theorem consHead_ne_nil (x : Char) (l : List (List Char)) : consHead x l ≠ [] := by
  cases l <;> simp [consHead]

theorem splitAtRunsAux_ne_nil (l : List Char) : ∀ inRun, splitAtRunsAux inRun l ≠ [] := by
  induction l with
  | nil => intro inRun; simp [splitAtRunsAux]
  | cons x xs ih =>
      intro inRun
      by_cases hx : x = '@'
      · cases inRun <;> simp [splitAtRunsAux, hx, ih true]
      · simp [splitAtRunsAux, hx, consHead_ne_nil]

/-- Models the Python substring test `pat in s`. -/
def containsSub (pat : List Char) : List Char → Bool
  | [] => pat == []
  | x :: xs => pat.isPrefixOf (x :: xs) || containsSub pat xs

/-- A symbol record as stored by `collect_syms`: the (version-stripped)
`Name`, the `Default` flag and the optional `Version`. -/
structure SymV where
  name : List Char
  defaultVersion : Bool
  version : Option (List Char)
deriving DecidableEq

/-- The version-splitting step of `collect_syms` (lines 212-219): a name
holding an `@` sets `Default` to whether it holds `@@`, then
`re.split(r"@+", name)` is unpacked into the stored name and the version —
an unpack of anything but two parts is an uncaught `ValueError`, modelled as
`none`; a name without `@` is stored unchanged with `Default` true and no
version. -/
def processName (n : List Char) : Option SymV :=
  if ('@' : Char) ∈ n then
    match splitAtRuns n with
    | [a, b] => some ⟨a, containsSub ("@@".toList) n, some b⟩
    | _ => none
  else some ⟨n, true, none⟩

theorem splitAtRunsAux_no_at (l : List Char) (h : ('@' : Char) ∉ l) :
    ∀ inRun, splitAtRunsAux inRun l = [l] := by
  induction l with
  | nil => intro inRun; rfl
  | cons x xs ih =>
      intro inRun
      have hx : x ≠ '@' := fun hc => h (hc ▸ List.mem_cons_self x xs)
      have hxs : ('@' : Char) ∉ xs := fun hc => h (List.mem_cons_of_mem x hc)
      simp [splitAtRunsAux, hx, ih hxs false, consHead]

theorem splitAtRunsAux_run (b : List Char) (k : Nat) :
    splitAtRunsAux true (List.replicate k '@' ++ b) = splitAtRunsAux true b := by
  induction k with
  | zero => rfl
  | succ m ih => simpa [List.replicate_succ, splitAtRunsAux] using ih

theorem splitAtRuns_single_run (a b : List Char) (k : Nat)
    (ha : ('@' : Char) ∉ a) (hb : ('@' : Char) ∉ b) (hk : 1 ≤ k) :
    splitAtRuns (a ++ List.replicate k '@' ++ b) = [a, b] := by
  unfold splitAtRuns
  induction a with
  | nil =>
      cases k with
      | zero => omega
      | succ m =>
          have h1 : splitAtRunsAux false ('@' :: (List.replicate m '@' ++ b)) =
              [] :: splitAtRunsAux true (List.replicate m '@' ++ b) := by
            simp [splitAtRunsAux]
          simp only [List.nil_append, List.replicate_succ, List.cons_append]
          rw [h1, splitAtRunsAux_run b m, splitAtRunsAux_no_at b hb true]
  | cons x xs ih =>
      have hx : x ≠ '@' := fun hc => ha (hc ▸ List.mem_cons_self x xs)
      have hxs : ('@' : Char) ∉ xs := fun hc => ha (List.mem_cons_of_mem x hc)
      have h2 := ih hxs
      have h3 : splitAtRunsAux false (x :: (xs ++ List.replicate k '@' ++ b)) =
          consHead x (splitAtRunsAux false (xs ++ List.replicate k '@' ++ b)) := by
        simp [splitAtRunsAux, hx]
      simp only [List.cons_append]
      rw [h3, h2]
      rfl

theorem splitAtRunsAux_parts_no_at (l : List Char) :
    ∀ inRun p, p ∈ splitAtRunsAux inRun l → ('@' : Char) ∉ p := by
  induction l with
  | nil =>
      intro inRun p hp
      simp only [splitAtRunsAux, List.mem_singleton] at hp
      subst hp
      exact List.not_mem_nil '@'
  | cons x xs ih =>
      intro inRun p hp
      by_cases hx : x = '@'
      · subst hx
        simp only [splitAtRunsAux, if_pos rfl] at hp
        cases inRun with
        | true => exact ih true p hp
        | false =>
            rcases List.mem_cons.mp hp with hp | hp
            · subst hp; exact List.not_mem_nil '@'
            · exact ih true p hp
      · simp only [splitAtRunsAux, if_neg hx] at hp
        rcases h : splitAtRunsAux false xs with _ | ⟨y, ys⟩
        · exact absurd h (splitAtRunsAux_ne_nil xs false)
        · rw [h, consHead] at hp
          rcases List.mem_cons.mp hp with hp | hp
          · subst hp
            intro hc
            rcases List.mem_cons.mp hc with hc | hc
            · exact hx hc.symm
            · exact ih false y (by rw [h]; exact List.mem_cons_self y ys) hc
          · exact ih false p (by rw [h]; exact List.mem_cons_of_mem y hp)

theorem splitAtRuns_parts_no_at (l : List Char) :
    ∀ p ∈ splitAtRuns l, ('@' : Char) ∉ p :=
  fun p hp => splitAtRunsAux_parts_no_at l false p hp

/-- C7: for a row name made of an `@`-free stem, a single run of `k ≥ 1`
`@`s and an `@`-free version, the stored name is the stem, the version is
the part after the run, and the `Default` flag is exactly the `@@`
containment test; a name without `@` is stored unchanged with `Default` true
and no version; and any stored record carries an `@`-free name. -/
theorem version_split (a b : List Char) (k : Nat)
    (ha : ('@' : Char) ∉ a) (hb : ('@' : Char) ∉ b) (hk : 1 ≤ k) :
    processName (a ++ List.replicate k '@' ++ b) =
      some ⟨a, containsSub ("@@".toList) (a ++ List.replicate k '@' ++ b), some b⟩ ∧
    (∀ n : List Char, ('@' : Char) ∉ n → processName n = some ⟨n, true, none⟩) ∧
    (∀ (n : List Char) (r : SymV), processName n = some r → ('@' : Char) ∉ r.name) := by
  refine ⟨?_, ?_, ?_⟩
  · have hmem : ('@' : Char) ∈ a ++ List.replicate k '@' ++ b := by
      cases k with
      | zero => omega
      | succ m => simp [List.replicate_succ]
    rw [processName, if_pos hmem, splitAtRuns_single_run a b k ha hb hk]
  · intro n hn
    rw [processName, if_neg hn]
  · intro n r hr
    rw [processName] at hr
    by_cases hn : ('@' : Char) ∈ n
    · rw [if_pos hn] at hr
      rcases h : splitAtRuns n with _ | ⟨y, ys⟩
      · rw [h] at hr; exact absurd hr (by simp)
      · rcases ys with _ | ⟨z, zs⟩
        · rw [h] at hr; exact absurd hr (by simp)
        · rcases zs with _ | ⟨w, ws⟩
          · rw [h] at hr
            have hry : r = ⟨y, containsSub ("@@".toList) n, some z⟩ :=
              (Option.some.inj hr).symm
            subst hry
            exact splitAtRuns_parts_no_at n y (by rw [h]; exact List.mem_cons_self y [z])
          · rw [h] at hr; exact absurd hr (by simp)
    · rw [if_neg hn] at hr
      have hrn : r = ⟨n, true, none⟩ := (Option.some.inj hr).symm
      subst hrn
      exact hn

/-- C7 witness: the ELF name `read@@GLIBC` is stored as the record
`(read, default, GLIBC)`, a plain name is stored unchanged, and the stored
names contain no `@`. -/
theorem version_split_witness :
    processName (("read".toList) ++ List.replicate 2 '@' ++ ("GLIBC".toList)) =
      some ⟨("read".toList),
        containsSub ("@@".toList)
          (("read".toList) ++ List.replicate 2 '@' ++ ("GLIBC".toList)),
        some ("GLIBC".toList)⟩ ∧
    (∀ n : List Char, ('@' : Char) ∉ n → processName n = some ⟨n, true, none⟩) ∧
    (∀ (n : List Char) (r : SymV), processName n = some r → ('@' : Char) ∉ r.name) :=
  version_split ("read".toList) ("GLIBC".toList) 2 (by decide) (by decide) (by decide)

/-- The per-row loop of `collect_syms` (lines 201-223) restricted to the
fields that the dedup decision reads and the version split writes: an empty
name is skipped, a name already in the seen set is skipped, any other name
is added to the seen set and its processed record is appended; a failing
version split (uncaught exception) aborts the whole collection. -/
def collectLoop (seen : List (List Char)) : List (List Char) → Option (List SymV)
  | [] => some []
  | n :: rest =>
    if n = [] then collectLoop seen rest
    else if n ∈ seen then collectLoop seen rest
    else
      match processName n with
      | none => none
      | some s => (collectLoop (n :: seen) rest).map (fun l => s :: l)

def collect_syms (rows : List (List Char)) : Option (List SymV) :=
  collectLoop [] rows

/-- Modelled from the spec: the raw names `collect_syms` accepts, in order —
dropping empty names and names already seen. Used to state what the dedup
of `collect_syms` keys on. -/
def acceptedRows (seen : List (List Char)) : List (List Char) → List (List Char)
  | [] => []
  | n :: rest =>
    if n = [] then acceptedRows seen rest
    else if n ∈ seen then acceptedRows seen rest
    else n :: acceptedRows (n :: seen) rest

theorem acceptedRows_not_mem_seen (rows : List (List Char)) :
    ∀ seen, ∀ n ∈ acceptedRows seen rows, n ∉ seen := by
  induction rows with
  | nil => intro seen n hn; exact absurd hn (by simp [acceptedRows])
  | cons r rest ih =>
      intro seen n hn
      by_cases hr0 : r = []
      · rw [acceptedRows, if_pos hr0] at hn
        exact ih seen n hn
      · by_cases hrs : r ∈ seen
        · rw [acceptedRows, if_neg hr0, if_pos hrs] at hn
          exact ih seen n hn
        · rw [acceptedRows, if_neg hr0, if_neg hrs] at hn
          rcases List.mem_cons.mp hn with hn | hn
          · exact hn ▸ hrs
          · intro hmem
            exact ih (r :: seen) n hn (List.mem_cons_of_mem r hmem)

theorem acceptedRows_nodup (rows : List (List Char)) :
    ∀ seen, (acceptedRows seen rows).Nodup := by
  induction rows with
  | nil => intro seen; simp [acceptedRows]
  | cons r rest ih =>
      intro seen
      by_cases hr0 : r = []
      · rw [acceptedRows, if_pos hr0]; exact ih seen
      · by_cases hrs : r ∈ seen
        · rw [acceptedRows, if_neg hr0, if_pos hrs]; exact ih seen
        · rw [acceptedRows, if_neg hr0, if_neg hrs]
          refine List.nodup_cons.mpr ⟨?_, ih (r :: seen)⟩
          intro hmem
          exact acceptedRows_not_mem_seen rest (r :: seen) r hmem
            (List.mem_cons_self r seen)

theorem collectLoop_eq_mapM (rows : List (List Char)) :
    ∀ seen, collectLoop seen rows = (acceptedRows seen rows).mapM processName := by
  induction rows with
  | nil => intro seen; rfl
  | cons r rest ih =>
      intro seen
      by_cases hr0 : r = []
      · rw [collectLoop, if_pos hr0, acceptedRows, if_pos hr0]; exact ih seen
      · by_cases hrs : r ∈ seen
        · rw [collectLoop, if_neg hr0, if_pos hrs, acceptedRows, if_neg hr0, if_pos hrs]
          exact ih seen
        · rw [collectLoop, if_neg hr0, if_neg hrs, acceptedRows, if_neg hr0, if_neg hrs,
            List.mapM_cons, ← ih (r :: seen)]
          cases processName r with
          | none => rfl
          | some s => cases collectLoop (r :: seen) rest <;> rfl

/-- C8 counterexample: the rows `foo@@A` and `foo@B` have distinct raw
names, so neither is dropped, yet both stored records carry the stored name
`foo`: two distinct records of the result share a stored name. -/
theorem collect_syms_stored_name_collision :
    collect_syms [("foo@@A".toList), ("foo@B".toList)] =
      some [⟨("foo".toList), true, some ("A".toList)⟩,
            ⟨("foo".toList), false, some ("B".toList)⟩] ∧
    (⟨("foo".toList), true, some ("A".toList)⟩ : SymV) ≠
      ⟨("foo".toList), false, some ("B".toList)⟩ ∧
    (⟨("foo".toList), true, some ("A".toList)⟩ : SymV).name =
      (⟨("foo".toList), false, some ("B".toList)⟩ : SymV).name := by
  refine ⟨by decide, by decide, rfl⟩

/-- C8 amended: the dedup of `collect_syms` keys on the raw, pre-strip name:
the accepted raw names are pairwise distinct and the returned records are
exactly their processed images in order; stored (version-stripped) names of
distinct records may coincide. -/
theorem collect_syms_dedup_raw (rows : List (List Char)) :
    (acceptedRows [] rows).Nodup ∧
    collect_syms rows = (acceptedRows [] rows).mapM processName :=
  ⟨acceptedRows_nodup rows [], collectLoop_eq_mapM rows []⟩

/-- Outputs of the external tools consulted for one input file: whether
`readelf -d` exits 0 (the probe of `is_binary_file`, lines 65-73), the
output of `file` (lines 78-88 and 350), and the outcome of
`readelf -SW` (line 357) — `run` aborts the program when the tool exits
non-zero or writes to stderr (lines 47-58), so a failing tool is an
`Except.error` carrying the diagnostic. -/
structure ToolEnv where
  readelfDRet0 : Bool
  fileOut : List Char
  readelfSW : Except (List Char) (List (List Char))

/-- The binary probe `is_binary_file` (lines 62-92): ELF when `readelf -d`
exits 0, otherwise a binary exactly when the `file` output holds one of the
signatures `Mach-O` or `shared library`. -/
def is_binary_file (env : ToolEnv) : Bool :=
  env.readelfDRet0 ||
    (containsSub ("Mach-O".toList) env.fileOut ||
     containsSub ("shared library".toList) env.fileOut)

/-- The state of `collect_sections` (lines 345-357) after its tool
interaction: the Mach-O early return yields an empty section list, otherwise
the raw `readelf -SW` output is handed to the header/row parser
(lines 359-379, reached only on tool success). -/
inductive SecProbe where
  | machOEmpty
  | elfLines (lines : List (List Char))
deriving DecidableEq

def collect_sections (env : ToolEnv) : Except (List Char) SecProbe :=
  if containsSub ("Mach-O".toList) env.fileOut then Except.ok SecProbe.machOEmpty
  else
    match env.readelfSW with
    | Except.error e => Except.error e
    | Except.ok lines => Except.ok (SecProbe.elfLines lines)

/-- The vtable phase of `main` (lines 845-867) through its first
fatal-capable tool call: the def-file guard at lines 845-847 and the
`collect_sections` call at line 867. An error anywhere here terminates the
program (`error` calls `sys.exit(1)`), so an error result of this prefix
means the run aborts before producing output. -/
def vtablePhase (vtables : Bool) (inputName : List Char) (env : ToolEnv) :
    Except (List Char) (Option SecProbe) :=
  if vtables then
    if !(is_binary_file env) && (".def".toList).isSuffixOf inputName then
      Except.error ("vtables not supported for .def files".toList)
    else (collect_sections env).map some
  else Except.ok none

/-- C9: with vtable mode on and a non-binary (def-file) input, the program
aborts: an input named `*.def` hits the explicit guard, and any other
non-binary input reaches `collect_sections`, whose `readelf -SW` invocation
fails on a non-ELF file (the hypothesis `hre` records that readelf rejects
files its `-d` probe already rejected) and `run` turns that failure into a
fatal error. -/
theorem vtables_def_file_fatal (inputName : List Char) (env : ToolEnv)
    (hbin : is_binary_file env = false)
    (hre : env.readelfDRet0 = false → ∃ e, env.readelfSW = Except.error e) :
    ∃ msg, vtablePhase true inputName env = Except.error msg := by
  have hb0 := hbin
  rw [is_binary_file] at hb0
  rcases Bool.or_eq_false_iff.mp hb0 with ⟨hd, h2⟩
  rcases Bool.or_eq_false_iff.mp h2 with ⟨hmacho, hshared⟩
  rcases hre hd with ⟨e, he⟩
  rw [vtablePhase, if_pos rfl]
  by_cases hdef : (".def".toList).isSuffixOf inputName = true
  · refine ⟨("vtables not supported for .def files".toList), ?_⟩
    rw [if_pos (show (!(is_binary_file env) && (".def".toList).isSuffixOf inputName) = true
      by rw [hbin, hdef]; rfl)]
  · refine ⟨e, ?_⟩
    rw [Bool.not_eq_true] at hdef
    rw [if_neg (show ¬((!(is_binary_file env) && (".def".toList).isSuffixOf inputName) = true)
      by rw [hdef]; simp)]
    rw [collect_sections, if_neg (by rw [hmacho]; simp), he]
    rfl

/-- C9 witness: a plain-text export list (readelf rejects it, `file` calls
it ASCII text) processed with vtable mode aborts. -/
theorem vtables_def_file_fatal_witness :
    ∃ msg, vtablePhase true ("exports.def".toList)
        ⟨false, ("ASCII text".toList),
          Except.error ("readelf: Error: Not an ELF file".toList)⟩ =
      Except.error msg :=
  vtables_def_file_fatal ("exports.def".toList)
    ⟨false, ("ASCII text".toList), Except.error ("readelf: Error: Not an ELF file".toList)⟩
    (by decide) (fun _ => ⟨("readelf: Error: Not an ELF file".toList), rfl⟩)

end ImplibGen
